/-
  Verification of the chunking + retrieval pipeline of the
  api_docs_qa_assistant repository, against its natural-language
  specification.

  Shallow embedding conventions:
  * Python strings are represented as `List Char` (`strL` converts a Lean
    string literal); Python `str.strip()` is `pyStrip`, slicing
    `text[a:b]` is `slice`, `str.rfind` is `rfind`.
  * Python ints used as character counts are `Nat` (all call sites in the
    claims use non-negative sizes); the truncation `end - overlap` matches
    Python because the code breaks out of the loop whenever the new start
    is `<= 0`.
  * Floating point vectors are modelled over `ℚ`; external collaborators
    (the OpenAI embedding provider, sklearn's vectorizer and
    cosine_similarity) are abstract function parameters.
  * The `while` loop of `chunk_text` is genuinely partial (it can fail to
    advance), so it is embedded with explicit fuel: `none` means the fuel
    ran out, i.e. the concrete loop did not terminate within that budget.
-/
import Mathlib

namespace ApiDocsQA

/-- Convert a Lean string literal to the `List Char` representation used
throughout the embedding. -/
def strL (s : String) : List Char := s.data

/-- Python's notion of whitespace for `str.split` / `str.strip`. -/
def isPySpace (c : Char) : Bool :=
  c = ' ' || c = '\t' || c = '\n' || c = '\r' || c = '\x0b' || c = '\x0c'

/-- Python `str.strip()`: drop whitespace from both ends. -/
def pyStrip (s : List Char) : List Char :=
  ((s.dropWhile isPySpace).reverse.dropWhile isPySpace).reverse

/-- Python slicing `text[a:b]` for `0 ≤ a ≤ b` (with clamping at the end of
the string, as in Python). -/
def slice (s : List Char) (a b : Nat) : List Char :=
  (s.take b).drop a

/-- Python `s.rfind(pat)`: the largest index at which `pat` occurs in `s`,
or `none` when it does not occur (Python returns `-1`). -/
def rfind (s pat : List Char) : Option Nat :=
  ((List.range (s.length + 1)).filter (fun i => pat.isPrefixOf (s.drop i))).getLast?

/-- The sentence terminator patterns of `chunk_text`, in priority order:
`'. '`, `'.\n'`, `'! '`, `'!\n'`, `'? '`, `'?\n'`. -/
def puncts : List (List Char) :=
  [['.', ' '], ['.', '\n'], ['!', ' '], ['!', '\n'], ['?', ' '], ['?', '\n']]

/-- The `for punct in [...]` search of `chunk_text`: the first pattern in
priority order that occurs in the window wins, and the new chunk end
offset (relative to `start`) is `last_punct + len(punct)`. -/
def findBoundary (window : List Char) : Option Nat :=
  (puncts.filterMap (fun p => (rfind window p).map (· + p.length))).head?

/-- One iteration of the `while` loop body of `chunk_text` (embeddings.py
lines 39-53), up to the point where the next `start` is computed: returns
the chunk appended on this iteration and the new `start = end - overlap`
(Nat-truncated; the Python value is `<= 0` exactly when this is `0`, which
is the only property the loop guard reads). -/
def chunkStep (text : List Char) (csize ov start : Nat) : List Char × Nat :=
  let e0 := start + csize
  let e1 :=
    if e0 < text.length then
      match findBoundary (slice text start e0) with
      | some b => start + b
      | none => e0
    else e0
  (pyStrip (slice text start e1), e1 - ov)

/-- The `while start < len(text)` loop of `chunk_text`, with fuel.  After
every append `len(chunks) > 0` holds, so the Python guard
`start <= 0 and len(chunks) > 0` is exactly `start' = 0` here.  `none`
means the loop did not finish within `fuel` iterations. -/
def chunkLoop (text : List Char) (csize ov : Nat) :
    Nat → Nat → List (List Char) → Option (List (List Char))
  | 0, _, _ => none
  | fuel + 1, start, chunks =>
    if start < text.length then
      let st := chunkStep text csize ov start
      let chunks1 := chunks ++ [st.1]
      if st.2 = 0 then some chunks1
      else chunkLoop text csize ov fuel st.2 chunks1
    else some chunks

/-- `DocumentProcessor.chunk_text` (embeddings.py lines 12-58), with the
loop under explicit fuel. -/
def chunk_text (text : List Char) (csize ov fuel : Nat) :
    Option (List (List Char)) :=
  if text.length ≤ csize then some [text]
  else chunkLoop text csize ov fuel 0 []

/-! ### Metadata builder (embeddings.py, `create_metadata`) -/

/-- Values stored in a metadata dictionary. -/
inductive PyVal where
  | int (n : Int)
  | str (s : String)
deriving DecidableEq, Repr

/-- A Python dict, as an insertion-ordered association list with unique
keys maintained by `dictSet`. -/
abbrev Dict := List (String × PyVal)

/-- `d[k] = v`: overwrite in place (keeping the key's original position,
as Python dicts do) or append a fresh key at the end. -/
def dictSet : Dict → String → PyVal → Dict
  | [], k, v => [(k, v)]
  | (k0, v0) :: rest, k, v =>
    if k0 = k then (k0, v) :: rest else (k0, v0) :: dictSet rest k v

/-- Python `d.update(e)`: set every key of `e` in `d`, left to right. -/
def dictUpdate (d e : Dict) : Dict :=
  e.foldl (fun a kv => dictSet a kv.1 kv.2) d

/-- The keys of a dict, in order. -/
def dictKeys (d : Dict) : List String := d.map Prod.fst

/-- Python `d.get(k)`: the value at the first occurrence of the key. -/
def dictGet : Dict → String → Option PyVal
  | [], _ => none
  | (k0, v0) :: rest, k => if k0 = k then some v0 else dictGet rest k

/-- `DocumentProcessor.create_metadata` (embeddings.py lines 61-91).
`doc_id = none` is Python `None`; `if doc_id:` is truthy exactly for a
non-empty string, `if additional_metadata:` for a non-empty dict. -/
def create_metadata (chunk_index total_chunks : Int) (doc_id : Option String)
    (additional_metadata : Option Dict) : Dict :=
  let metadata : Dict :=
    [("chunk_index", .int chunk_index), ("total_chunks", .int total_chunks)]
  let metadata :=
    match doc_id with
    | some d => if d ≠ "" then dictSet metadata "doc_id" (.str d) else metadata
    | none => metadata
  match additional_metadata with
  | some e => if e ≠ [] then dictUpdate metadata e else metadata
  | none => metadata

/-- The metadata builder as the spec describes it (§4.3): a base mapping
that always has `chunk_index` and `total_chunks`, then `doc_id` appended
only when provided and truthy, then the `extra` mapping merged on top
(last-write-wins). -/
def createMetadataSpec (chunk_index total_chunks : Int) (doc_id : Option String)
    (extra : Option Dict) : Dict :=
  let base : Dict :=
    [("chunk_index", .int chunk_index), ("total_chunks", .int total_chunks)] ++
      (match doc_id with
       | some d => if d ≠ "" then [("doc_id", .str d)] else []
       | none => [])
  dictUpdate base (extra.getD [])

/-! ### Normalizer (embeddings.py, `preprocess_text`) -/

/-- Python `text.split()` (no separator): split on runs of whitespace,
discarding empty pieces.  `acc` is the current word, reversed. -/
def pySplitAux : List Char → List Char → List (List Char)
  | [], acc => if acc.isEmpty then [] else [acc.reverse]
  | c :: cs, acc =>
    if isPySpace c then
      if acc.isEmpty then pySplitAux cs [] else acc.reverse :: pySplitAux cs []
    else pySplitAux cs (c :: acc)

/-- Python `text.split()`. -/
def pySplit (s : List Char) : List (List Char) := pySplitAux s []

/-- Python `' '.join(words)`. -/
def joinWords : List (List Char) → List Char
  | [] => []
  | [w] => w
  | w :: ws => w ++ ' ' :: joinWords ws

/-- Python `text.replace('\r\n', '\n')` (left-to-right, non-overlapping). -/
def replaceCRLF : List Char → List Char
  | [] => []
  | '\r' :: '\n' :: cs => '\n' :: replaceCRLF cs
  | c :: cs => c :: replaceCRLF cs

/-- Python `text.replace('\r', '\n')`. -/
def replaceCR : List Char → List Char
  | [] => []
  | '\r' :: cs => '\n' :: replaceCR cs
  | c :: cs => c :: replaceCR cs

/-- Python `'\n\n\n' in text`. -/
def has3NL : List Char → Bool
  | '\n' :: '\n' :: '\n' :: _ => true
  | _ :: cs => has3NL cs
  | [] => false

/-- Python `text.replace('\n\n\n', '\n\n')`. -/
def replace3NL : List Char → List Char
  | '\n' :: '\n' :: '\n' :: cs => '\n' :: '\n' :: replace3NL cs
  | c :: cs => c :: replace3NL cs
  | [] => []

/-- The `while '\n\n\n' in text:` loop, under fuel (each productive pass
strictly shrinks the string, so `length` fuel suffices). -/
def collapseNLLoop : Nat → List Char → List Char
  | 0, s => s
  | fuel + 1, s => if has3NL s then collapseNLLoop fuel (replace3NL s) else s

/-- `DocumentProcessor.preprocess_text` (embeddings.py lines 93-114):
whitespace collapse, then line-ending normalization, then blank-line
collapsing, then a final strip. -/
def preprocess_text (t : List Char) : List Char :=
  let t1 := joinWords (pySplitAux t [])
  let t2 := replaceCR (replaceCRLF t1)
  let t3 := collapseNLLoop t2.length t2
  pyStrip t3

/-- The normalizer as the spec's words describe the observed behavior:
every run of whitespace collapsed to a single space.  The flag records
whether the previous character belonged to a whitespace run. -/
def collapseRunsAux : Bool → List Char → List Char
  | _, [] => []
  | inRun, c :: cs =>
    if isPySpace c then
      if inRun then collapseRunsAux true cs
      else ' ' :: collapseRunsAux true cs
    else c :: collapseRunsAux false cs

/-- Every run of whitespace collapsed to a single space. -/
def collapseRuns (t : List Char) : List Char := collapseRunsAux false t

/-- Spec-side normalizer (§4.1 observed behavior): collapse whitespace
runs, trim the ends. -/
def normalizeSpec (t : List Char) : List Char :=
  pyStrip (collapseRuns t)

/-! ### Index backends -/

/-- An embedding / tf-idf vector.  Floating point is modelled over `ℚ`. -/
abbrev Vec := List ℚ

/-- `np.argsort(vals)`: a permutation of `range vals.length` listing
indices in ascending order of value (tie order is unspecified by the
source's sort; a stable insertion sort is one faithful choice). -/
def argsort (vals : List ℚ) : List Nat :=
  List.insertionSort (fun i j => vals.getD i 0 ≤ vals.getD j 0)
    (List.range vals.length)

/-- The in-memory state of `SimpleVectorStore` (simple_vector_store.py):
three parallel sequences plus the tf-idf matrix (`None` until fitted). -/
structure SimpleVectorStore where
  documents : List String
  metadatas : List Dict
  doc_ids : List String
  document_vectors : Option (List Vec)
deriving DecidableEq

namespace SimpleVectorStore

/-- `SimpleVectorStore.add_documents` (simple_vector_store.py lines
32-65).  `fitTransform` is sklearn's `TfidfVectorizer.fit_transform`,
abstract; auto-ids use the pre-extend document count. -/
def add_documents (fitTransform : List String → List Vec)
    (st : SimpleVectorStore) (texts : List String) (metadatas : List Dict)
    (doc_ids : Option (List String)) : SimpleVectorStore :=
  let ids :=
    match doc_ids with
    | some ids => ids
    | none =>
      (List.range texts.length).map
        (fun i => "doc_" ++ toString (st.documents.length + i))
  let documents1 := st.documents ++ texts
  { documents := documents1
    metadatas := st.metadatas ++ metadatas
    doc_ids := st.doc_ids ++ ids
    document_vectors :=
      if 0 < documents1.length then some (fitTransform documents1)
      else st.document_vectors }

/-- `SimpleVectorStore.delete_document` (simple_vector_store.py lines
111-132): pop the first occurrence of the id from all three sequences and
refit, or do nothing when the id is absent. -/
def delete_document (fitTransform : List String → List Vec)
    (st : SimpleVectorStore) (docId : String) : SimpleVectorStore :=
  if docId ∈ st.doc_ids then
    let i := st.doc_ids.indexOf docId
    let documents1 := st.documents.eraseIdx i
    { documents := documents1
      metadatas := st.metadatas.eraseIdx i
      doc_ids := st.doc_ids.eraseIdx i
      document_vectors :=
        if 0 < documents1.length then some (fitTransform documents1)
        else none }
  else st

/-- `SimpleVectorStore.search` (simple_vector_store.py lines 67-109).
`transform` is the vectorizer's `transform` on the single-query batch and
`cosSim` is sklearn's `cosine_similarity` against one stored row, both
abstract.  `np.argsort(similarities)[::-1][:top_k]` picks the indices. -/
def search (transform : String → Vec) (cosSim : Vec → Vec → ℚ)
    (st : SimpleVectorStore) (query : String) (top_k : Nat) :
    List String × List Dict × List ℚ :=
  if st.documents.length = 0 then ([], [], [])
  else
    let q := transform query
    let sims := (st.document_vectors.getD []).map (cosSim q)
    let topIdx := (argsort sims).reverse.take top_k
    (topIdx.map (fun i => st.documents.getD i ""),
     topIdx.map (fun i => st.metadatas.getD i []),
     topIdx.map (fun i => 1 - sims.getD i 0))

end SimpleVectorStore

/-- Squared Euclidean (L2) distance, the metric of `faiss.IndexFlatL2`. -/
def sqL2 (q v : Vec) : ℚ :=
  ((List.zip q v).map (fun p => (p.1 - p.2) ^ 2)).sum

/-- The state of `VectorStore` (vector_store.py): a FAISS `IndexFlatL2`
holding the stored vectors (its `ntotal` is `index.length`) plus the three
parallel sequences. -/
structure VectorStore where
  index : List Vec
  documents : List String
  metadatas : List Dict
  doc_ids : List String
deriving DecidableEq

namespace VectorStore

/-- `VectorStore.add_documents` (vector_store.py lines 43-78).  `embed` is
the OpenAI embedding provider (`_get_embeddings`), abstract; auto-ids use
the pre-add `index.ntotal`. -/
def add_documents (embed : List String → List Vec) (st : VectorStore)
    (texts : List String) (metadatas : List Dict)
    (doc_ids : Option (List String)) : VectorStore :=
  let ids :=
    match doc_ids with
    | some ids => ids
    | none =>
      (List.range texts.length).map
        (fun i => "doc_" ++ toString (st.index.length + i))
  { index := st.index ++ embed texts
    documents := st.documents ++ texts
    metadatas := st.metadatas ++ metadatas
    doc_ids := st.doc_ids ++ ids }

/-- `VectorStore.delete_document` (vector_store.py lines 120-135) followed
by `_rebuild_index` (lines 137-144): pop the first occurrence from the
three sequences, then rebuild the FAISS index from the remaining
documents (empty documents give a fresh empty index). -/
def delete_document (embed : List String → List Vec) (st : VectorStore)
    (docId : String) : VectorStore :=
  if docId ∈ st.doc_ids then
    let i := st.doc_ids.indexOf docId
    let documents1 := st.documents.eraseIdx i
    { index := if documents1.isEmpty then [] else embed documents1
      documents := documents1
      metadatas := st.metadatas.eraseIdx i
      doc_ids := st.doc_ids.eraseIdx i }
  else st

/-- `VectorStore.search` (vector_store.py lines 80-118).  The FAISS
`IndexFlatL2.search` call is a third-party library; its result here is
modelled from the spec (§4.4): squared-L2 distance to every stored
vector, the `min(top_k, ntotal)` smallest first, ascending. -/
def search (embed : List String → List Vec) (st : VectorStore)
    (query : String) (top_k : Nat) : List String × List Dict × List ℚ :=
  if st.index.length = 0 then ([], [], [])
  else
    let q := (embed [query]).getD 0 []
    let k := min top_k st.index.length
    let dists := st.index.map (sqL2 q)
    let topIdx := (argsort dists).take k
    (topIdx.map (fun i => st.documents.getD i ""),
     topIdx.map (fun i => st.metadatas.getD i []),
     topIdx.map (fun i => dists.getD i 0))

end VectorStore

/-! ### Retrieval orchestrator (routes.py, `ask_question`) -/

/-- The `Source` response model of routes.py (content, metadata and the
user-facing relevance score). -/
structure SourceModel where
  content : String
  metadata : Dict
  relevance_score : ℚ
deriving DecidableEq

/-- The `sources` list comprehension of `ask_question` (routes.py lines
112-119): zip the search results, truncate long contents to 200
characters plus an ellipsis, and set `relevance_score = 1.0 - distance`. -/
def makeSources (documents : List String) (metadatas : List Dict)
    (distances : List ℚ) : List SourceModel :=
  (documents.zip (metadatas.zip distances)).map
    (fun t =>
      { content :=
          if 200 < t.1.length then String.mk (t.1.data.take 200) ++ "..."
          else t.1
        metadata := t.2.1
        relevance_score := 1 - t.2.2 })

/-! ## Helper lemmas -/

/-- Unfold one non-terminating, non-breaking iteration of the chunk loop. -/
theorem chunkLoop_step (text : List Char) (csize ov n start : Nat)
    (acc : List (List Char)) (w : List Char) (s1 : Nat)
    (hlt : start < text.length)
    (hstep : chunkStep text csize ov start = (w, s1)) (hs : s1 ≠ 0) :
    chunkLoop text csize ov (n + 1) start acc =
      chunkLoop text csize ov n s1 (acc ++ [w]) := by
  simp only [chunkLoop, hstep, if_pos hlt]
  rw [if_neg hs]

/-- On the text `"0123456789ab. "` + 12 `x`s with `chunk_size = 10` and
`chunk_overlap = 4`, the chunk loop never advances past `start = 10`: the
sentence-boundary cut keeps producing `end = 14`, so the new start is
`14 - 4 = 10` again.  No amount of fuel lets the loop finish. -/
theorem chunkLoop_stuck (fuel : Nat) (acc : List (List Char)) :
    chunkLoop (strL "0123456789ab. xxxxxxxxxxxx") 10 4 fuel 10 acc = none := by
  induction fuel generalizing acc with
  | zero => rfl
  | succ n ih =>
    rw [chunkLoop_step _ _ _ _ _ _ (strL "ab.") 10 (by decide) (by decide)
      (by decide)]
    exact ih _

/-! ## Claims -/

/-- C1: the claim says that for every text longer than `chunk_size` with
`chunk_overlap < chunk_size`, `chunk_text` terminates and returns at least
2 chunks.  The code violates both parts.  On
`"ab. cd. ef. gh. ij. kl"` with `chunk_size = 5`, `chunk_overlap = 4`
(length 22 > 5, overlap 4 < 5) the sentence-boundary cut moves the first
chunk end back to 4, the new start is `4 - 4 = 0`, the "prevent infinite
loop" guard fires, and the function returns the single chunk `"ab."`,
silently dropping the rest of the text.  On
`"0123456789ab. xxxxxxxxxxxx"` with `chunk_size = 10`,
`chunk_overlap = 4` (length 26 > 10, overlap 4 < 10) the loop reaches
`start = 10` and never advances: `chunk_text` diverges (in the fueled
embedding it returns `none` for every fuel). -/
theorem c1_chunk_text_guard_misfires_and_loop_diverges :
    (chunk_text (strL "ab. cd. ef. gh. ij. kl") 5 4 100 = some [strL "ab."] ∧
      (strL "ab. cd. ef. gh. ij. kl").length = 22 ∧ 5 < 22 ∧ 4 < 5) ∧
    ((strL "0123456789ab. xxxxxxxxxxxx").length = 26 ∧ 10 < 26 ∧ 4 < 10 ∧
      ∀ fuel : Nat, chunk_text (strL "0123456789ab. xxxxxxxxxxxx") 10 4 fuel =
        none) := by
  refine ⟨⟨by decide, by decide, by decide, by decide⟩,
    ⟨by decide, by decide, by decide, ?_⟩⟩
  intro fuel
  have hne : ¬ (strL "0123456789ab. xxxxxxxxxxxx").length ≤ 10 := by decide
  rw [chunk_text, if_neg hne]
  match fuel with
  | 0 => rfl
  | 1 =>
    rw [chunkLoop_step _ _ _ _ _ _ (strL "0123456789") 6 (by decide) (by decide)
      (by decide)]
    rfl
  | (n + 2) =>
    rw [chunkLoop_step _ _ _ _ _ _ (strL "0123456789") 6 (by decide) (by decide)
      (by decide)]
    rw [chunkLoop_step _ _ _ _ _ _ (strL "6789ab.") 10 (by decide) (by decide)
      (by decide)]
    exact chunkLoop_stuck n _

/-- C2 (counterexample to the claim as stated): for the 3-character input
`" a "` and `chunk_size = 10`, the single returned chunk is the raw input
`" a "`, not the trimmed `"a"`: the early-return path of `chunk_text`
returns `[text]` without stripping. -/
theorem c2_short_text_not_trimmed_counterexample :
    chunk_text (strL " a ") 10 0 100 ≠ some [pyStrip (strL " a ")] ∧
    chunk_text (strL " a ") 10 0 100 = some [strL " a "] := by
  exact ⟨by decide, by decide⟩

/-- C2 (amended): for every text with `len(text) <= chunk_size`,
`chunk_text` returns exactly one chunk, and that chunk is the input
string unchanged (the early return does not strip). -/
theorem c2_short_text_single_untrimmed_chunk (text : List Char)
    (csize ov fuel : Nat) (h : text.length ≤ csize) :
    chunk_text text csize ov fuel = some [text] := by
  rw [chunk_text, if_pos h]

/-- C2 witness: the amended theorem applied at `"hi"`, `chunk_size = 10`. -/
theorem c2_short_text_single_untrimmed_chunk_witness :
    (strL "hi").length ≤ 10 ∧ chunk_text (strL "hi") 10 3 1 = some [strL "hi"] :=
  ⟨by decide, c2_short_text_single_untrimmed_chunk (strL "hi") 10 3 1 (by decide)⟩

/-- Erasing at the index right after a prefix removes exactly the element
between the prefix and the suffix. -/
theorem eraseIdx_append_cons {α : Type} (pre suf : List α) (a : α) :
    (pre ++ a :: suf).eraseIdx pre.length = pre ++ suf := by
  induction pre with
  | nil => rfl
  | cons p ps ih => simpa [List.eraseIdx] using ih

/-- The first occurrence of `a` after a prefix not containing it sits at
the prefix's length. -/
theorem indexOf_append_cons_self (pre suf : List String) (a : String)
    (h : a ∉ pre) : (pre ++ a :: suf).indexOf a = pre.length := by
  rw [List.indexOf_append_of_not_mem h, List.indexOf_cons_self, Nat.add_zero]

/-- Erasing a valid index shortens a list by exactly one. -/
theorem length_eraseIdx_lt {α : Type} (l : List α) (i : Nat)
    (h : i < l.length) : (l.eraseIdx i).length = l.length - 1 := by
  rw [List.length_eraseIdx]
  simp [h]

/-- C3: searching an index that holds zero records returns three empty
sequences, for both the flat nearest-neighbor backend (`VectorStore`,
which checks `index.ntotal == 0`) and the sparse lexical backend
(`SimpleVectorStore`, which checks `len(documents) == 0`), for every
query, every `top_k` and every embedding provider. -/
theorem c3_search_empty_index_returns_empty
    (transform : String → Vec) (cosSim : Vec → Vec → ℚ)
    (embed : List String → List Vec) (s : SimpleVectorStore) (f : VectorStore)
    (query : String) (top_k : Nat)
    (hs : s.documents = []) (hf : f.index = []) :
    SimpleVectorStore.search transform cosSim s query top_k = ([], [], []) ∧
    VectorStore.search embed f query top_k = ([], [], []) := by
  constructor
  · rw [SimpleVectorStore.search, if_pos (by simp [hs])]
  · rw [VectorStore.search, if_pos (by simp [hf])]

/-- C3 witness: both searches on concrete empty stores. -/
theorem c3_search_empty_index_returns_empty_witness :
    SimpleVectorStore.search (fun _ => []) (fun _ _ => 0)
        ⟨[], [], [], none⟩ "anything" 7 = ([], [], []) ∧
    VectorStore.search (fun _ => []) ⟨[], [], [], []⟩ "anything" 7 =
      ([], [], []) :=
  c3_search_empty_index_returns_empty (fun _ => []) (fun _ _ => 0)
    (fun _ => []) ⟨[], [], [], none⟩ ⟨[], [], [], []⟩ "anything" 7 rfl rfl

/-- C4: `delete_document` on both backends.  If the id is present, the
record count drops by exactly 1 and the three parallel sequences have the
entry at the same position `i` (the first occurrence of the id) removed
from each, staying equal in length; if the id is absent, the store is
returned unchanged (and no error is raised — the embedded operation is
total). -/
theorem c4_delete_document_present_or_noop
    (fitTransform embed : List String → List Vec)
    (s : SimpleVectorStore) (f : VectorStore) (docId : String)
    (hs1 : s.metadatas.length = s.documents.length)
    (hs2 : s.doc_ids.length = s.documents.length)
    (hf1 : f.metadatas.length = f.documents.length)
    (hf2 : f.doc_ids.length = f.documents.length) :
    ((docId ∈ s.doc_ids →
      ∃ i, i < s.documents.length ∧
        (SimpleVectorStore.delete_document fitTransform s docId).documents =
          s.documents.eraseIdx i ∧
        (SimpleVectorStore.delete_document fitTransform s docId).metadatas =
          s.metadatas.eraseIdx i ∧
        (SimpleVectorStore.delete_document fitTransform s docId).doc_ids =
          s.doc_ids.eraseIdx i ∧
        (SimpleVectorStore.delete_document fitTransform s docId).documents.length =
          s.documents.length - 1 ∧
        (SimpleVectorStore.delete_document fitTransform s docId).metadatas.length =
          (SimpleVectorStore.delete_document fitTransform s docId).documents.length ∧
        (SimpleVectorStore.delete_document fitTransform s docId).doc_ids.length =
          (SimpleVectorStore.delete_document fitTransform s docId).documents.length) ∧
     (docId ∉ s.doc_ids →
      SimpleVectorStore.delete_document fitTransform s docId = s)) ∧
    ((docId ∈ f.doc_ids →
      ∃ i, i < f.documents.length ∧
        (VectorStore.delete_document embed f docId).documents =
          f.documents.eraseIdx i ∧
        (VectorStore.delete_document embed f docId).metadatas =
          f.metadatas.eraseIdx i ∧
        (VectorStore.delete_document embed f docId).doc_ids =
          f.doc_ids.eraseIdx i ∧
        (VectorStore.delete_document embed f docId).documents.length =
          f.documents.length - 1 ∧
        (VectorStore.delete_document embed f docId).metadatas.length =
          (VectorStore.delete_document embed f docId).documents.length ∧
        (VectorStore.delete_document embed f docId).doc_ids.length =
          (VectorStore.delete_document embed f docId).documents.length) ∧
     (docId ∉ f.doc_ids → VectorStore.delete_document embed f docId = f)) := by
  constructor
  · constructor
    · intro hmem
      have hid : s.doc_ids.indexOf docId < s.documents.length :=
        hs2 ▸ List.indexOf_lt_length.mpr hmem
      have him : s.doc_ids.indexOf docId < s.metadatas.length := by
        rw [hs1]; exact hid
      have hii : s.doc_ids.indexOf docId < s.doc_ids.length := by
        rw [hs2]; exact hid
      have hd : (SimpleVectorStore.delete_document fitTransform s docId).documents
          = s.documents.eraseIdx (s.doc_ids.indexOf docId) := by
        simp [SimpleVectorStore.delete_document, hmem]
      have hm : (SimpleVectorStore.delete_document fitTransform s docId).metadatas
          = s.metadatas.eraseIdx (s.doc_ids.indexOf docId) := by
        simp [SimpleVectorStore.delete_document, hmem]
      have hdi : (SimpleVectorStore.delete_document fitTransform s docId).doc_ids
          = s.doc_ids.eraseIdx (s.doc_ids.indexOf docId) := by
        simp [SimpleVectorStore.delete_document, hmem]
      refine ⟨s.doc_ids.indexOf docId, hid, hd, hm, hdi, ?_, ?_, ?_⟩
      · rw [hd, length_eraseIdx_lt _ _ hid]
      · rw [hm, hd, length_eraseIdx_lt _ _ him, length_eraseIdx_lt _ _ hid, hs1]
      · rw [hdi, hd, length_eraseIdx_lt _ _ hii, length_eraseIdx_lt _ _ hid, hs2]
    · intro hmem
      rw [SimpleVectorStore.delete_document, if_neg hmem]
  · constructor
    · intro hmem
      have hid : f.doc_ids.indexOf docId < f.documents.length :=
        hf2 ▸ List.indexOf_lt_length.mpr hmem
      have him : f.doc_ids.indexOf docId < f.metadatas.length := by
        rw [hf1]; exact hid
      have hii : f.doc_ids.indexOf docId < f.doc_ids.length := by
        rw [hf2]; exact hid
      have hd : (VectorStore.delete_document embed f docId).documents
          = f.documents.eraseIdx (f.doc_ids.indexOf docId) := by
        simp [VectorStore.delete_document, hmem]
      have hm : (VectorStore.delete_document embed f docId).metadatas
          = f.metadatas.eraseIdx (f.doc_ids.indexOf docId) := by
        simp [VectorStore.delete_document, hmem]
      have hdi : (VectorStore.delete_document embed f docId).doc_ids
          = f.doc_ids.eraseIdx (f.doc_ids.indexOf docId) := by
        simp [VectorStore.delete_document, hmem]
      refine ⟨f.doc_ids.indexOf docId, hid, hd, hm, hdi, ?_, ?_, ?_⟩
      · rw [hd, length_eraseIdx_lt _ _ hid]
      · rw [hm, hd, length_eraseIdx_lt _ _ him, length_eraseIdx_lt _ _ hid, hf1]
      · rw [hdi, hd, length_eraseIdx_lt _ _ hii, length_eraseIdx_lt _ _ hid, hf2]
    · intro hmem
      rw [VectorStore.delete_document, if_neg hmem]

/-- C4 witness: the theorem at a concrete two-record store, for a present
id (count drops to 1) and an absent id (no-op), on both backends. -/
theorem c4_delete_document_present_or_noop_witness :
    (SimpleVectorStore.delete_document (fun _ => [[1]])
      ⟨["a", "b"], [[], []], ["i1", "i2"], some [[1], [2]]⟩
      "i1").documents.length = (["a", "b"] : List String).length - 1 ∧
    SimpleVectorStore.delete_document (fun _ => [[1]])
      ⟨["a", "b"], [[], []], ["i1", "i2"], some [[1], [2]]⟩ "zzz" =
      ⟨["a", "b"], [[], []], ["i1", "i2"], some [[1], [2]]⟩ ∧
    VectorStore.delete_document (fun _ => [[1]])
      ⟨[[1], [2]], ["a", "b"], [[], []], ["i1", "i2"]⟩ "zzz" =
      ⟨[[1], [2]], ["a", "b"], [[], []], ["i1", "i2"]⟩ := by
  refine ⟨?_, ?_, ?_⟩
  · obtain ⟨i, hi, hd, hm, hdi, hlen, h6, h7⟩ :=
      (c4_delete_document_present_or_noop (fun _ => [[1]]) (fun _ => [[1]])
        ⟨["a", "b"], [[], []], ["i1", "i2"], some [[1], [2]]⟩
        ⟨[[1], [2]], ["a", "b"], [[], []], ["i1", "i2"]⟩ "i1"
        rfl rfl rfl rfl).1.1 (by decide)
    exact hlen
  · exact (c4_delete_document_present_or_noop (fun _ => [[1]]) (fun _ => [[1]])
      ⟨["a", "b"], [[], []], ["i1", "i2"], some [[1], [2]]⟩
      ⟨[[1], [2]], ["a", "b"], [[], []], ["i1", "i2"]⟩ "zzz"
      rfl rfl rfl rfl).1.2 (by decide)
  · exact (c4_delete_document_present_or_noop (fun _ => [[1]]) (fun _ => [[1]])
      ⟨["a", "b"], [[], []], ["i1", "i2"], some [[1], [2]]⟩
      ⟨[[1], [2]], ["a", "b"], [[], []], ["i1", "i2"]⟩ "zzz"
      rfl rfl rfl rfl).2.2 (by decide)
/-- C5: `add_documents` on both backends.  With `texts` and `metadatas` of
equal length (and explicit `doc_ids`, when supplied, of that same length),
the three sequences each grow by exactly the batch size, stay equal in
length, and extend the old sequences in order (old records first, the
batch appended in its given order).  For the flat backend the FAISS index
(`ntotal`) also grows by the batch size, given that the embedding provider
returns one vector per input text. -/
theorem c5_add_documents_grows_by_batch
    (fitTransform embed : List String → List Vec)
    (s : SimpleVectorStore) (f : VectorStore)
    (texts : List String) (metadatas : List Dict)
    (doc_ids : Option (List String))
    (hlen : metadatas.length = texts.length)
    (hids : ∀ ids, doc_ids = some ids → ids.length = texts.length)
    (hs1 : s.metadatas.length = s.documents.length)
    (hs2 : s.doc_ids.length = s.documents.length)
    (hf1 : f.metadatas.length = f.documents.length)
    (hf2 : f.doc_ids.length = f.documents.length)
    (hf3 : f.index.length = f.documents.length)
    (hembed : (embed texts).length = texts.length) :
    ((SimpleVectorStore.add_documents fitTransform s texts metadatas
        doc_ids).documents = s.documents ++ texts ∧
      (SimpleVectorStore.add_documents fitTransform s texts metadatas
        doc_ids).metadatas = s.metadatas ++ metadatas ∧
      (SimpleVectorStore.add_documents fitTransform s texts metadatas
        doc_ids).documents.length = s.documents.length + texts.length ∧
      (SimpleVectorStore.add_documents fitTransform s texts metadatas
        doc_ids).metadatas.length =
        (SimpleVectorStore.add_documents fitTransform s texts metadatas
          doc_ids).documents.length ∧
      (SimpleVectorStore.add_documents fitTransform s texts metadatas
        doc_ids).doc_ids.length =
        (SimpleVectorStore.add_documents fitTransform s texts metadatas
          doc_ids).documents.length) ∧
    ((VectorStore.add_documents embed f texts metadatas
        doc_ids).documents = f.documents ++ texts ∧
      (VectorStore.add_documents embed f texts metadatas
        doc_ids).metadatas = f.metadatas ++ metadatas ∧
      (VectorStore.add_documents embed f texts metadatas
        doc_ids).documents.length = f.documents.length + texts.length ∧
      (VectorStore.add_documents embed f texts metadatas
        doc_ids).metadatas.length =
        (VectorStore.add_documents embed f texts metadatas
          doc_ids).documents.length ∧
      (VectorStore.add_documents embed f texts metadatas
        doc_ids).doc_ids.length =
        (VectorStore.add_documents embed f texts metadatas
          doc_ids).documents.length ∧
      (VectorStore.add_documents embed f texts metadatas
        doc_ids).index.length = f.index.length + texts.length) := by
  have hidlen : ∀ st0 : Nat,
      (match doc_ids with
        | some ids => ids
        | none => (List.range texts.length).map
            (fun i => "doc_" ++ toString (st0 + i))).length = texts.length := by
    intro st0
    cases doc_ids with
    | some ids => exact hids ids rfl
    | none => simp
  constructor
  · refine ⟨rfl, rfl, ?_, ?_, ?_⟩ <;>
      simp [SimpleVectorStore.add_documents, hlen, hs1, hs2,
        hidlen s.documents.length]
  · refine ⟨rfl, rfl, ?_, ?_, ?_, ?_⟩ <;>
      simp [VectorStore.add_documents, hlen, hf1, hf2, hf3, hembed,
        hidlen f.index.length, hidlen f.documents.length]

/-- C5 witness: adding a 2-text batch with auto-generated ids to concrete
1-record stores; counts go from 1 to 3 on both backends. -/
theorem c5_add_documents_grows_by_batch_witness :
    (SimpleVectorStore.add_documents (fun ds => ds.map (fun _ => [1]))
      ⟨["a"], [[]], ["i0"], some [[1]]⟩ ["b", "c"] [[], []]
      none).documents.length = (["a"] : List String).length + 2 ∧
    (VectorStore.add_documents (fun ds => ds.map (fun _ => [1]))
      ⟨[[1]], ["a"], [[]], ["i0"]⟩ ["b", "c"] [[], []]
      none).index.length = ([[1]] : List Vec).length + 2 := by
  have h := c5_add_documents_grows_by_batch (fun ds => ds.map (fun _ => [1]))
    (fun ds => ds.map (fun _ => [1])) ⟨["a"], [[]], ["i0"], some [[1]]⟩
    ⟨[[1]], ["a"], [[]], ["i0"]⟩ ["b", "c"] [[], []] none rfl
    (fun ids hids => by cases hids) rfl rfl rfl rfl rfl rfl
  exact ⟨h.1.2.2.1, h.2.2.2.2.2.2⟩

/-- C10: when the same id occurs at more than one position in `doc_ids`,
`delete_document` removes only the record at the first (lowest-index)
occurrence, on both backends: the id sequence becomes `pre ++ suf` (the
first occurrence dropped), exactly one record is removed from each
parallel sequence (at the position of that first occurrence), the
id's multiplicity drops by exactly one, and every later duplicate keeps
the id present in the index. -/
theorem c10_delete_removes_only_first_occurrence
    (fitTransform embed : List String → List Vec)
    (s : SimpleVectorStore) (f : VectorStore) (docId : String)
    (preS sufS preF sufF : List String)
    (hsids : s.doc_ids = preS ++ docId :: sufS) (hpreS : docId ∉ preS)
    (hfids : f.doc_ids = preF ++ docId :: sufF) (hpreF : docId ∉ preF) :
    ((SimpleVectorStore.delete_document fitTransform s docId).doc_ids =
        preS ++ sufS ∧
      (SimpleVectorStore.delete_document fitTransform s docId).documents =
        s.documents.eraseIdx preS.length ∧
      (SimpleVectorStore.delete_document fitTransform s docId).metadatas =
        s.metadatas.eraseIdx preS.length ∧
      (SimpleVectorStore.delete_document fitTransform s docId).doc_ids.length
        + 1 = s.doc_ids.length ∧
      ((preS ++ sufS).count docId) + 1 = s.doc_ids.count docId ∧
      (docId ∈ sufS →
        docId ∈ (SimpleVectorStore.delete_document fitTransform s
          docId).doc_ids)) ∧
    ((VectorStore.delete_document embed f docId).doc_ids = preF ++ sufF ∧
      (VectorStore.delete_document embed f docId).documents =
        f.documents.eraseIdx preF.length ∧
      (VectorStore.delete_document embed f docId).metadatas =
        f.metadatas.eraseIdx preF.length ∧
      (VectorStore.delete_document embed f docId).doc_ids.length + 1 =
        f.doc_ids.length ∧
      ((preF ++ sufF).count docId) + 1 = f.doc_ids.count docId ∧
      (docId ∈ sufF →
        docId ∈ (VectorStore.delete_document embed f docId).doc_ids)) := by
  have hmemS : docId ∈ s.doc_ids := by simp [hsids]
  have hmemF : docId ∈ f.doc_ids := by simp [hfids]
  have hixS : s.doc_ids.indexOf docId = preS.length := by
    rw [hsids, indexOf_append_cons_self _ _ _ hpreS]
  have hixF : f.doc_ids.indexOf docId = preF.length := by
    rw [hfids, indexOf_append_cons_self _ _ _ hpreF]
  have hdiS : (SimpleVectorStore.delete_document fitTransform s docId).doc_ids
      = preS ++ sufS := by
    simp only [SimpleVectorStore.delete_document, if_pos hmemS, hixS]
    rw [hsids]
    exact eraseIdx_append_cons preS sufS docId
  have hdiF : (VectorStore.delete_document embed f docId).doc_ids
      = preF ++ sufF := by
    simp only [VectorStore.delete_document, if_pos hmemF, hixF]
    rw [hfids]
    exact eraseIdx_append_cons preF sufF docId
  refine ⟨⟨hdiS, ?_, ?_, ?_, ?_, ?_⟩, hdiF, ?_, ?_, ?_, ?_, ?_⟩
  · simp [SimpleVectorStore.delete_document, hmemS, hixS]
  · simp [SimpleVectorStore.delete_document, hmemS, hixS]
  · rw [hdiS, hsids]
    simp [Nat.add_comm, Nat.add_assoc, Nat.add_left_comm]
  · rw [hsids]
    simp only [List.count_append, List.count_cons_self]
    omega
  · intro hsuf
    rw [hdiS]
    simp [hsuf]
  · simp [VectorStore.delete_document, hmemF, hixF]
  · simp [VectorStore.delete_document, hmemF, hixF]
  · rw [hdiF, hfids]
    simp [Nat.add_comm, Nat.add_assoc, Nat.add_left_comm]
  · rw [hfids]
    simp only [List.count_append, List.count_cons_self]
    omega
  · intro hsuf
    rw [hdiF]
    simp [hsuf]

/-- C10 witness: deleting `"dup"` from ids `["x", "dup", "y", "dup"]`
removes only position 1; the later duplicate keeps `"dup"` present. -/
theorem c10_delete_removes_only_first_occurrence_witness :
    (SimpleVectorStore.delete_document (fun _ => [[1]])
      ⟨["a", "b", "c", "d"], [[], [], [], []], ["x", "dup", "y", "dup"],
        some [[1], [2], [3], [4]]⟩ "dup").doc_ids = ["x", "y", "dup"] ∧
    "dup" ∈ (SimpleVectorStore.delete_document (fun _ => [[1]])
      ⟨["a", "b", "c", "d"], [[], [], [], []], ["x", "dup", "y", "dup"],
        some [[1], [2], [3], [4]]⟩ "dup").doc_ids ∧
    (VectorStore.delete_document (fun _ => [[1]])
      ⟨[[1], [2], [3], [4]], ["a", "b", "c", "d"], [[], [], [], []],
        ["x", "dup", "y", "dup"]⟩ "dup").doc_ids = ["x", "y", "dup"] := by
  have h := c10_delete_removes_only_first_occurrence (fun _ => [[1]])
    (fun _ => [[1]])
    ⟨["a", "b", "c", "d"], [[], [], [], []], ["x", "dup", "y", "dup"],
      some [[1], [2], [3], [4]]⟩
    ⟨[[1], [2], [3], [4]], ["a", "b", "c", "d"], [[], [], [], []],
      ["x", "dup", "y", "dup"]⟩ "dup"
    ["x"] ["y", "dup"] ["x"] ["y", "dup"] rfl (by decide) rfl (by decide)
  exact ⟨h.1.1, h.1.2.2.2.2.2 (by decide), h.2.1⟩

/-- Setting a key that is not yet in a dict appends it at the end. -/
theorem dictSet_of_not_mem (d : Dict) (k : String) (v : PyVal)
    (h : k ∉ dictKeys d) : dictSet d k v = d ++ [(k, v)] := by
  induction d with
  | nil => rfl
  | cons kv rest ih =>
    obtain ⟨k0, v0⟩ := kv
    simp only [dictKeys, List.map_cons, List.mem_cons] at h
    push_neg at h
    simp only [dictSet, List.cons_append]
    rw [if_neg (Ne.symm h.1), ih (by simpa [dictKeys] using h.2)]

/-- `dictSet` never removes a key. -/
theorem mem_dictKeys_dictSet (d : Dict) (k k1 : String) (v : PyVal)
    (h : k1 ∈ dictKeys d) : k1 ∈ dictKeys (dictSet d k v) := by
  induction d with
  | nil => cases h
  | cons kv rest ih =>
    obtain ⟨k0, v0⟩ := kv
    by_cases hk : k0 = k
    · subst hk
      simp only [dictSet, if_pos rfl]
      simpa [dictKeys] using (by simpa [dictKeys] using h)
    · simp only [dictKeys, List.map_cons, List.mem_cons] at h
      rcases h with h | h
      · simp [dictSet, hk, dictKeys, h]
      · simp only [dictSet, if_neg hk, dictKeys, List.map_cons, List.mem_cons]
        exact Or.inr (by simpa [dictKeys] using ih (by simpa [dictKeys] using h))

/-- The key just set is in the dict. -/
theorem self_mem_dictKeys_dictSet (d : Dict) (k : String) (v : PyVal) :
    k ∈ dictKeys (dictSet d k v) := by
  induction d with
  | nil => simp [dictSet, dictKeys]
  | cons kv rest ih =>
    obtain ⟨k0, v0⟩ := kv
    by_cases hk : k0 = k
    · simp [dictSet, hk, dictKeys]
    · simp only [dictSet, if_neg hk, dictKeys, List.map_cons, List.mem_cons]
      exact Or.inr (by simpa [dictKeys] using ih)

/-- `dictUpdate` keeps every key of the left dict. -/
theorem mem_dictKeys_dictUpdate_left (d e : Dict) (k1 : String)
    (h : k1 ∈ dictKeys d) : k1 ∈ dictKeys (dictUpdate d e) := by
  induction e generalizing d with
  | nil => exact h
  | cons kv rest ih =>
    exact ih (dictSet d kv.1 kv.2) (mem_dictKeys_dictSet d kv.1 k1 kv.2 h)

/-- Every key of the merged-in dict ends up in the result of
`dictUpdate`. -/
theorem mem_dictKeys_dictUpdate_right (d e : Dict) (kv : String × PyVal)
    (h : kv ∈ e) : kv.1 ∈ dictKeys (dictUpdate d e) := by
  induction e generalizing d with
  | nil => cases h
  | cons kv0 rest ih =>
    rcases List.mem_cons.mp h with h | h
    · subst h
      exact mem_dictKeys_dictUpdate_left (dictSet d kv.1 kv.2) rest kv.1
        (self_mem_dictKeys_dictSet d kv.1 kv.2)
    · exact ih (dictSet d kv0.1 kv0.2) h

/-- Looking up a key different from the one just set is unchanged. -/
theorem dictGet_dictSet_ne (d : Dict) (k k1 : String) (v : PyVal)
    (h : k ≠ k1) : dictGet (dictSet d k1 v) k = dictGet d k := by
  induction d with
  | nil => simp [dictSet, dictGet, Ne.symm h]
  | cons kv rest ih =>
    obtain ⟨k0, v0⟩ := kv
    by_cases hk : k0 = k1
    · subst hk
      simp only [dictSet, if_pos rfl, dictGet]
      rw [if_neg (Ne.symm h), if_neg (Ne.symm h)]
    · simp only [dictSet, if_neg hk, dictGet]
      by_cases hq : k0 = k
      · rw [if_pos hq, if_pos hq]
      · rw [if_neg hq, if_neg hq]
        exact ih

/-- Merging a dict that does not contain a key leaves that key's value
unchanged. -/
theorem dictGet_dictUpdate_not_mem (d e : Dict) (k : String)
    (h : k ∉ dictKeys e) : dictGet (dictUpdate d e) k = dictGet d k := by
  induction e generalizing d with
  | nil => rfl
  | cons kv rest ih =>
    simp only [dictKeys, List.map_cons, List.mem_cons] at h
    push_neg at h
    show dictGet (dictUpdate (dictSet d kv.1 kv.2) rest) k = dictGet d k
    rw [ih _ (by simpa [dictKeys] using h.2),
      dictGet_dictSet_ne _ _ _ _ h.1]

/-- C8: `create_metadata` agrees with the spec's compositional description
(base mapping with `chunk_index` and `total_chunks`, `doc_id` added only
when provided and truthy, the extra mapping merged on top with
last-write-wins); both built-in keys are always present; every key of the
extra mapping is present in the result; when the extra mapping does not
itself use the key `"doc_id"`, the result contains `"doc_id"` exactly when
`doc_id` was provided and non-empty; and on a key collision the value from
the extra mapping wins (shown at the colliding key `"chunk_index"`). -/
theorem c8_create_metadata_spec_conformance (ci tc : Int)
    (did : Option String) (extra : Option Dict) :
    create_metadata ci tc did extra = createMetadataSpec ci tc did extra ∧
    "chunk_index" ∈ dictKeys (create_metadata ci tc did extra) ∧
    "total_chunks" ∈ dictKeys (create_metadata ci tc did extra) ∧
    (∀ kv ∈ extra.getD [], kv.1 ∈ dictKeys (create_metadata ci tc did extra)) ∧
    ("doc_id" ∉ dictKeys (extra.getD []) →
      (dictGet (create_metadata ci tc did extra) "doc_id" ≠ none ↔
        ∃ d, did = some d ∧ d ≠ "")) ∧
    dictGet (create_metadata 1 2 none (some [("chunk_index", PyVal.int 99)]))
      "chunk_index" = some (PyVal.int 99) := by
  have h1 : create_metadata ci tc did extra = createMetadataSpec ci tc did extra := by
    rw [create_metadata.eq_def, createMetadataSpec.eq_def]
    cases did with
    | none =>
      cases extra with
      | none => simp [dictUpdate]
      | some e =>
        by_cases he : e = []
        · subst he
          simp [dictUpdate]
        · simp [dictUpdate, he]
    | some d =>
      by_cases hd : d = ""
      · subst hd
        cases extra with
        | none => simp [dictUpdate]
        | some e =>
          by_cases he : e = []
          · subst he
            simp [dictUpdate]
          · simp [dictUpdate, he]
      · have hset : dictSet
            [("chunk_index", PyVal.int ci), ("total_chunks", PyVal.int tc)]
            "doc_id" (PyVal.str d) =
            [("chunk_index", PyVal.int ci), ("total_chunks", PyVal.int tc)] ++
              [("doc_id", PyVal.str d)] :=
          dictSet_of_not_mem _ _ _ (by simp [dictKeys])
        cases extra with
        | none => simp [dictUpdate, hd, hset]
        | some e =>
          by_cases he : e = []
          · subst he
            simp [dictUpdate, hd, hset]
          · simp [dictUpdate, hd, he, hset]
  refine ⟨h1, ?_, ?_, ?_, ?_, by decide⟩
  · rw [h1, createMetadataSpec.eq_def]
    exact mem_dictKeys_dictUpdate_left _ _ _ (by simp [dictKeys])
  · rw [h1, createMetadataSpec.eq_def]
    exact mem_dictKeys_dictUpdate_left _ _ _ (by simp [dictKeys])
  · intro kv hkv
    rw [h1, createMetadataSpec.eq_def]
    exact mem_dictKeys_dictUpdate_right _ _ kv hkv
  · intro hno
    rw [h1, createMetadataSpec.eq_def, dictGet_dictUpdate_not_mem _ _ _ hno]
    cases did with
    | none => simp [dictGet]
    | some d =>
      by_cases hd : d = ""
      · subst hd
        simp [dictGet]
      · simp [dictGet, hd]

/-- C8 witness: the theorem at `chunk_index = 0`, `total_chunks = 3`,
`doc_id = "d1"`, `extra = {"a": 7}`; the `"doc_id"` biconditional is
discharged at this input. -/
theorem c8_create_metadata_spec_conformance_witness :
    create_metadata 0 3 (some "d1") (some [("a", PyVal.int 7)]) =
      createMetadataSpec 0 3 (some "d1") (some [("a", PyVal.int 7)]) ∧
    dictGet (create_metadata 0 3 (some "d1") (some [("a", PyVal.int 7)]))
      "doc_id" ≠ none := by
  have h := c8_create_metadata_spec_conformance 0 3 (some "d1")
    (some [("a", PyVal.int 7)])
  exact ⟨h.1, (h.2.2.2.2.1 (by decide)).mpr ⟨"d1", rfl, by decide⟩⟩

/-- C9: the retrieval orchestrator's `sources` comprehension sets every
source's `relevance_score` to exactly `1.0 - distance` for that result's
raw distance; and for the flat squared-L2 backend, whose distances can
exceed 1, this produces a negative score: a one-record store at vector
`(0,0)` queried at `(1,1)` returns distance `2`, hence relevance `-1`. -/
theorem c9_relevance_score_is_one_minus_distance
    (documents : List String) (metadatas : List Dict) (distances : List ℚ) :
    (makeSources documents metadatas distances).map
        SourceModel.relevance_score =
      (documents.zip (metadatas.zip distances)).map (fun t => 1 - t.2.2) ∧
    (VectorStore.search (fun _ => [[1, 1]]) ⟨[[0, 0]], ["d"], [[]], ["i0"]⟩
        "q" 1).2.2 = [2] ∧
    (makeSources
        (VectorStore.search (fun _ => [[1, 1]])
          ⟨[[0, 0]], ["d"], [[]], ["i0"]⟩ "q" 1).1
        (VectorStore.search (fun _ => [[1, 1]])
          ⟨[[0, 0]], ["d"], [[]], ["i0"]⟩ "q" 1).2.1
        (VectorStore.search (fun _ => [[1, 1]])
          ⟨[[0, 0]], ["d"], [[]], ["i0"]⟩ "q" 1).2.2).map
        SourceModel.relevance_score = [-1] ∧
    ((-1 : ℚ) < 0) := by
  have hs : VectorStore.search (fun _ => [[1, 1]])
      ⟨[[0, 0]], ["d"], [[]], ["i0"]⟩ "q" 1 = (["d"], [[]], [2]) := by
    norm_num [VectorStore.search, argsort, sqL2, List.insertionSort,
      List.orderedInsert]
  refine ⟨?_, ?_, ?_, by norm_num⟩
  · rw [makeSources, List.map_map]
    rfl
  · rw [hs]
  · rw [hs]
    norm_num [makeSources]

/-- `argsort` returns one index per value. -/
theorem argsort_length (vals : List ℚ) : (argsort vals).length = vals.length := by
  simp [argsort]

/-- Every index produced by `argsort` is in range. -/
theorem mem_argsort (vals : List ℚ) (i : Nat) (h : i ∈ argsort vals) :
    i < vals.length := by
  have : i ∈ List.range vals.length := by simpa [argsort] using h
  simpa using this

/-- `argsort` lists indices in ascending order of value. -/
theorem argsort_sorted (vals : List ℚ) :
    (argsort vals).Pairwise (fun i j => vals.getD i 0 ≤ vals.getD j 0) := by
  letI : IsTotal Nat (fun i j => vals.getD i 0 ≤ vals.getD j 0) :=
    ⟨fun a b => le_total _ _⟩
  letI : IsTrans Nat (fun i j => vals.getD i 0 ≤ vals.getD j 0) :=
    ⟨fun a b c hab hbc => le_trans hab hbc⟩
  exact List.sorted_insertionSort _ _

/-- `getD` through a `map`, for an in-range index. -/
theorem getD_map_of_lt {α β : Type} (f : α → β) (l : List α) (i : Nat)
    (d : β) (d0 : α) (h : i < l.length) :
    (l.map f).getD i d = f (l.getD i d0) := by
  simp [List.getD_eq_getElem?_getD, List.getElem?_map,
    List.getElem?_eq_getElem, h]

/-- C6: on a non-empty index of `n` records, `search` returns exactly
`min(top_k, n)` results, and the returned distances are ordered ascending,
on both backends; additionally, for the sparse lexical backend
(`SimpleVectorStore`), each returned distance is exactly `1` minus the
cosine similarity (the abstract `cosSim`, sklearn's `cosine_similarity`)
between the transformed query vector and the stored vector of the record
returned at the same rank. -/
theorem c6_search_returns_min_topk_ascending
    (transform : String → Vec) (cosSim : Vec → Vec → ℚ)
    (embed : List String → List Vec) (s : SimpleVectorStore) (f : VectorStore)
    (query : String) (top_k : Nat)
    (hs0 : s.documents ≠ [])
    (hsv : (s.document_vectors.getD []).length = s.documents.length)
    (hf0 : f.index ≠ []) :
    ((SimpleVectorStore.search transform cosSim s query top_k).1.length =
        min top_k s.documents.length ∧
      (SimpleVectorStore.search transform cosSim s query top_k).2.2.length =
        min top_k s.documents.length ∧
      (SimpleVectorStore.search transform cosSim s query
        top_k).2.2.Pairwise (· ≤ ·) ∧
      (∀ j, j < (SimpleVectorStore.search transform cosSim s query
          top_k).2.2.length →
        ∃ i, i < s.documents.length ∧
          (SimpleVectorStore.search transform cosSim s query
              top_k).2.2.getD j 0 =
            1 - cosSim (transform query)
              ((s.document_vectors.getD []).getD i []) ∧
          (SimpleVectorStore.search transform cosSim s query
            top_k).1.getD j "" = s.documents.getD i "")) ∧
    ((VectorStore.search embed f query top_k).1.length =
        min top_k f.index.length ∧
      (VectorStore.search embed f query top_k).2.2.length =
        min top_k f.index.length ∧
      (VectorStore.search embed f query top_k).2.2.Pairwise (· ≤ ·)) := by
  have hne : ¬ (s.documents.length = 0) := by
    simpa [List.length_eq_zero] using hs0
  have hfne : ¬ (f.index.length = 0) := by
    simpa [List.length_eq_zero] using hf0
  have hS : SimpleVectorStore.search transform cosSim s query top_k =
      ((((argsort ((s.document_vectors.getD []).map
          (cosSim (transform query)))).reverse.take top_k).map
            (fun i => s.documents.getD i ""),
        ((argsort ((s.document_vectors.getD []).map
          (cosSim (transform query)))).reverse.take top_k).map
            (fun i => s.metadatas.getD i []),
        ((argsort ((s.document_vectors.getD []).map
          (cosSim (transform query)))).reverse.take top_k).map
            (fun i => 1 - ((s.document_vectors.getD []).map
              (cosSim (transform query))).getD i 0))) := by
    rw [SimpleVectorStore.search, if_neg hne]
  have hF : VectorStore.search embed f query top_k =
      (((argsort (f.index.map (sqL2 ((embed [query]).getD 0 [])))).take
          (min top_k f.index.length)).map (fun i => f.documents.getD i ""),
        ((argsort (f.index.map (sqL2 ((embed [query]).getD 0 [])))).take
          (min top_k f.index.length)).map (fun i => f.metadatas.getD i []),
        ((argsort (f.index.map (sqL2 ((embed [query]).getD 0 [])))).take
          (min top_k f.index.length)).map
            (fun i => (f.index.map (sqL2 ((embed [query]).getD 0
              []))).getD i 0)) := by
    rw [VectorStore.search, if_neg hfne]
  have hsimslen : ((s.document_vectors.getD []).map
      (cosSim (transform query))).length = s.documents.length := by
    rw [List.length_map, hsv]
  have hdistslen : (f.index.map (sqL2 ((embed [query]).getD 0 []))).length =
      f.index.length := List.length_map _ _
  constructor
  · refine ⟨?_, ?_, ?_, ?_⟩
    · rw [hS]
      simp [List.length_take, argsort_length, hsimslen]
    · rw [hS]
      simp [List.length_take, argsort_length, hsimslen]
    · rw [hS]
      apply List.pairwise_map.mpr
      apply List.Pairwise.sublist (List.take_sublist _ _)
      apply List.Pairwise.imp ?_ (List.pairwise_reverse.mpr (argsort_sorted _))
      intro a b hba
      exact sub_le_sub_left hba 1
    · intro j hj
      rw [hS] at hj
      simp only [List.length_map] at hj
      have hmem : ((argsort ((s.document_vectors.getD []).map
          (cosSim (transform query)))).reverse.take top_k).getD j 0 ∈
          (argsort ((s.document_vectors.getD []).map
            (cosSim (transform query)))).reverse.take top_k := by
        rw [List.getD_eq_getElem?_getD, List.getElem?_eq_getElem hj]
        exact List.getElem_mem hj
      have hilt : ((argsort ((s.document_vectors.getD []).map
          (cosSim (transform query)))).reverse.take top_k).getD j 0 <
          ((s.document_vectors.getD []).map
            (cosSim (transform query))).length :=
        mem_argsort _ _ (List.mem_reverse.mp (List.mem_of_mem_take hmem))
      refine ⟨((argsort ((s.document_vectors.getD []).map
          (cosSim (transform query)))).reverse.take top_k).getD j 0,
        by rw [← hsimslen]; exact hilt, ?_, ?_⟩
      · rw [hS]
        rw [getD_map_of_lt _ _ _ _ 0 hj]
        rw [getD_map_of_lt (cosSim (transform query)) _ _ _ []
          (by rwa [List.length_map] at hilt)]
      · rw [hS]
        rw [getD_map_of_lt _ _ _ _ 0 hj]
  · refine ⟨?_, ?_, ?_⟩
    · rw [hF]
      simp [List.length_take, argsort_length, hdistslen]
    · rw [hF]
      simp [List.length_take, argsort_length, hdistslen]
    · rw [hF]
      apply List.pairwise_map.mpr
      apply List.Pairwise.sublist (List.take_sublist _ _)
      exact argsort_sorted _

/-- C6 witness: the theorem at concrete two-record stores with
`top_k = 5`: both backends return `min 5 2 = 2` results with ascending
distances. -/
theorem c6_search_returns_min_topk_ascending_witness :
    (SimpleVectorStore.search (fun _ => [1]) (fun _ v => v.headD 0)
      ⟨["a", "b"], [[], []], ["i1", "i2"], some [[1/2], [9/10]]⟩ "q"
      5).2.2.length = min 5 2 ∧
    (SimpleVectorStore.search (fun _ => [1]) (fun _ v => v.headD 0)
      ⟨["a", "b"], [[], []], ["i1", "i2"], some [[1/2], [9/10]]⟩ "q"
      5).2.2.Pairwise (· ≤ ·) ∧
    (VectorStore.search (fun _ => [[1]])
      ⟨[[0], [3]], ["a", "b"], [[], []], ["i1", "i2"]⟩ "q" 5).1.length =
      min 5 2 := by
  have h := c6_search_returns_min_topk_ascending (fun _ => [1])
    (fun _ v => v.headD 0) (fun _ => [[1]])
    ⟨["a", "b"], [[], []], ["i1", "i2"], some [[1/2], [9/10]]⟩
    ⟨[[0], [3]], ["a", "b"], [[], []], ["i1", "i2"]⟩ "q" 5
    (by decide) rfl (by decide)
  exact ⟨h.1.2.1, h.1.2.2.1, h.2.1⟩

/-! ## Normalizer lemmas and claim C7 -/

theorem replaceCRLF_cons_ne (c : Char) (cs : List Char) (hc : ¬ c = '\r') :
    replaceCRLF (c :: cs) = c :: replaceCRLF cs := by
  rw [replaceCRLF.eq_def]
  split
  · simp_all
  · simp_all
  · simp_all

theorem replaceCR_cons_ne (c : Char) (cs : List Char) (hc : ¬ c = '\r') :
    replaceCR (c :: cs) = c :: replaceCR cs := by
  rw [replaceCR.eq_def]
  split
  · simp_all
  · simp_all
  · simp_all

theorem has3NL_cons_ne (c : Char) (cs : List Char) (hc : ¬ c = '\n') :
    has3NL (c :: cs) = has3NL cs := by
  rw [has3NL.eq_def]
  split
  · simp_all
  · simp_all
  · simp_all

theorem replaceCRLF_no_cr (s : List Char) (h : ∀ c ∈ s, ¬ c = '\r') :
    replaceCRLF s = s := by
  induction s with
  | nil => rfl
  | cons c cs ih =>
    rw [replaceCRLF_cons_ne c cs (h c (List.mem_cons_self c cs)),
      ih (fun c0 hc0 => h c0 (List.mem_cons_of_mem _ hc0))]

theorem replaceCR_no_cr (s : List Char) (h : ∀ c ∈ s, ¬ c = '\r') :
    replaceCR s = s := by
  induction s with
  | nil => rfl
  | cons c cs ih =>
    rw [replaceCR_cons_ne c cs (h c (List.mem_cons_self c cs)),
      ih (fun c0 hc0 => h c0 (List.mem_cons_of_mem _ hc0))]

theorem has3NL_no_nl (s : List Char) (h : ∀ c ∈ s, ¬ c = '\n') :
    has3NL s = false := by
  induction s with
  | nil => rfl
  | cons c cs ih =>
    rw [has3NL_cons_ne c cs (h c (List.mem_cons_self c cs)),
      ih (fun c0 hc0 => h c0 (List.mem_cons_of_mem _ hc0))]

theorem dropWhile_eq_self_of_head (p : Char → Bool) (s : List Char)
    (h : ∀ c, s.head? = some c → p c = false) : s.dropWhile p = s := by
  cases s with
  | nil => rfl
  | cons c cs => rw [List.dropWhile_cons_of_neg (by simp [h c rfl])]

theorem pyStrip_eq_self (s : List Char)
    (h1 : ∀ c, s.head? = some c → isPySpace c = false)
    (h2 : ∀ c, s.getLast? = some c → isPySpace c = false) : pyStrip s = s := by
  rw [pyStrip, dropWhile_eq_self_of_head _ _ h1,
    dropWhile_eq_self_of_head _ _ (by simpa [List.head?_reverse] using h2),
    List.reverse_reverse]

theorem pySplitAux_good (cs : List Char) : ∀ (acc : List Char),
    (∀ c ∈ acc, isPySpace c = false) →
    ∀ w ∈ pySplitAux cs acc, w ≠ [] ∧ ∀ c ∈ w, isPySpace c = false := by
  induction cs with
  | nil =>
    intro acc hacc w hw
    rw [pySplitAux] at hw
    by_cases ha : acc.isEmpty
    · rw [if_pos ha] at hw
      cases hw
    · rw [if_neg ha] at hw
      rcases List.mem_singleton.mp hw with rfl
      refine ⟨by simpa [List.isEmpty_iff] using ha, ?_⟩
      intro c hc
      exact hacc c (List.mem_reverse.mp hc)
  | cons c cs ih =>
    intro acc hacc w hw
    rw [pySplitAux] at hw
    by_cases hc : isPySpace c
    · rw [if_pos hc] at hw
      by_cases ha : acc.isEmpty
      · rw [if_pos ha] at hw
        exact ih [] (by simp) w hw
      · rw [if_neg ha] at hw
        rcases List.mem_cons.mp hw with rfl | hw2
        · refine ⟨by simpa [List.isEmpty_iff] using ha, ?_⟩
          intro c0 hc0
          exact hacc c0 (List.mem_reverse.mp hc0)
        · exact ih [] (by simp) w hw2
    · rw [if_neg hc] at hw
      refine ih (c :: acc) ?_ w hw
      intro c0 hc0
      rcases List.mem_cons.mp hc0 with rfl | hc1
      · simpa using hc
      · exact hacc c0 hc1

theorem joinWords_cons_ne_nil (w : List Char) (ws : List (List Char))
    (h : ws ≠ []) : joinWords (w :: ws) = w ++ ' ' :: joinWords ws := by
  cases ws with
  | nil => exact absurd rfl h
  | cons w2 ws2 => rfl

theorem joinWords_chars (ws : List (List Char))
    (h : ∀ w ∈ ws, w ≠ [] ∧ ∀ c ∈ w, isPySpace c = false) :
    ∀ c ∈ joinWords ws, c = ' ' ∨ isPySpace c = false := by
  induction ws with
  | nil => simp [joinWords]
  | cons w ws ih =>
    intro c hc
    cases ws with
    | nil => exact Or.inr ((h w (by simp)).2 c (by simpa [joinWords] using hc))
    | cons w2 ws2 =>
      rw [joinWords_cons_ne_nil w _ (by simp)] at hc
      rcases List.mem_append.mp hc with h1 | h1
      · exact Or.inr ((h w (by simp)).2 c h1)
      · rcases List.mem_cons.mp h1 with rfl | h2
        · exact Or.inl rfl
        · exact ih (fun w0 hw0 => h w0 (List.mem_cons_of_mem _ hw0)) c h2

theorem joinWords_ne_nil (ws : List (List Char)) (hne : ws ≠ [])
    (h : ∀ w ∈ ws, w ≠ [] ∧ ∀ c ∈ w, isPySpace c = false) :
    joinWords ws ≠ [] := by
  cases ws with
  | nil => exact absurd rfl hne
  | cons w ws2 =>
    cases ws2 with
    | nil => exact (h w (by simp)).1
    | cons w2 ws3 =>
      rw [joinWords_cons_ne_nil w _ (by simp)]
      simp [(h w (by simp)).1]

theorem joinWords_head (ws : List (List Char))
    (h : ∀ w ∈ ws, w ≠ [] ∧ ∀ c ∈ w, isPySpace c = false) :
    ∀ c, (joinWords ws).head? = some c → isPySpace c = false := by
  intro c hc
  cases ws with
  | nil => cases hc
  | cons w ws2 =>
    have hw := h w (by simp)
    obtain ⟨a, w', rfl⟩ : ∃ a w', w = a :: w' := by
      cases w with
      | nil => exact absurd rfl hw.1
      | cons a w' => exact ⟨a, w', rfl⟩
    cases ws2 with
    | nil =>
      simp only [joinWords, List.head?_cons] at hc
      obtain rfl := Option.some.inj hc
      exact hw.2 _ (by simp)
    | cons w2 ws3 =>
      rw [joinWords_cons_ne_nil _ _ (by simp)] at hc
      simp only [List.cons_append, List.head?_cons] at hc
      obtain rfl := Option.some.inj hc
      exact hw.2 _ (by simp)

theorem joinWords_last (ws : List (List Char))
    (h : ∀ w ∈ ws, w ≠ [] ∧ ∀ c ∈ w, isPySpace c = false) :
    ∀ c, (joinWords ws).getLast? = some c → isPySpace c = false := by
  induction ws with
  | nil => intro c hc; cases hc
  | cons w ws2 ih =>
    intro c hc
    cases ws2 with
    | nil =>
      have hw := h w (by simp)
      simp only [joinWords] at hc
      exact hw.2 c (List.mem_of_mem_getLast? hc)
    | cons w2 ws3 =>
      rw [joinWords_cons_ne_nil _ _ (by simp)] at hc
      have hrest : joinWords (w2 :: ws3) ≠ [] :=
        joinWords_ne_nil _ (by simp) (fun w0 hw0 => h w0 (List.mem_cons_of_mem _ hw0))
      rw [List.getLast?_append_of_ne_nil _ (by simp)] at hc
      cases heq : joinWords (w2 :: ws3) with
      | nil => exact absurd heq hrest
      | cons y rest =>
        rw [heq, List.getLast?_cons_cons] at hc
        exact ih (fun w0 hw0 => h w0 (List.mem_cons_of_mem _ hw0)) c
          (heq ▸ hc)

theorem pySplitAux_ne_nil (cs : List Char) : ∀ (acc : List Char), acc ≠ [] →
    pySplitAux cs acc ≠ [] := by
  induction cs with
  | nil =>
    intro acc ha
    rw [pySplitAux, if_neg (by simpa [List.isEmpty_iff] using ha)]
    simp
  | cons c cs ih =>
    intro acc ha
    rw [pySplitAux]
    by_cases hc : isPySpace c
    · rw [if_pos hc, if_neg (by simpa [List.isEmpty_iff] using ha)]
      simp
    · rw [if_neg hc]
      exact ih (c :: acc) (by simp)

theorem cRA_true_eq_dropWhile (ds : List Char) :
    collapseRunsAux true ds = collapseRunsAux false (ds.dropWhile isPySpace) := by
  induction ds with
  | nil => rfl
  | cons d ds ih =>
    by_cases hd : isPySpace d
    · rw [collapseRunsAux, if_pos hd, if_pos rfl, List.dropWhile_cons_of_pos hd]
      exact ih
    · rw [collapseRunsAux, if_neg hd, List.dropWhile_cons_of_neg hd,
        collapseRunsAux, if_neg hd]

theorem pySplitAux_dropWhile (ds : List Char) :
    pySplitAux ds [] = pySplitAux (ds.dropWhile isPySpace) [] := by
  induction ds with
  | nil => rfl
  | cons d ds ih =>
    by_cases hd : isPySpace d
    · rw [pySplitAux, if_pos hd, List.dropWhile_cons_of_pos hd]
      simpa using ih
    · rw [List.dropWhile_cons_of_neg hd]

theorem dropWhile_eq_self_of_all (p : Char → Bool) (s : List Char)
    (h : ∀ c ∈ s, p c = false) : s.dropWhile p = s := by
  cases s with
  | nil => rfl
  | cons a s2 =>
    rw [List.dropWhile_cons_of_neg (by simp [h a (List.mem_cons_self a s2)])]

theorem pyStrip_of_all_nonspace (s : List Char)
    (h : ∀ c ∈ s, isPySpace c = false) : pyStrip s = s := by
  rw [pyStrip, dropWhile_eq_self_of_all _ _ h,
    dropWhile_eq_self_of_all _ _ (fun c hc => h c (List.mem_reverse.mp hc)),
    List.reverse_reverse]

theorem pyStrip_cons_space (x : List Char) : pyStrip (' ' :: x) = pyStrip x := by
  rw [pyStrip, pyStrip, List.dropWhile_cons_of_pos (by simp [isPySpace])]

theorem pyStrip_append_space (x : List Char)
    (h : ∀ c ∈ x, isPySpace c = false) : pyStrip (x ++ [' ']) = x := by
  cases x with
  | nil => rfl
  | cons a x2 =>
    have ha := h a (List.mem_cons_self a x2)
    rw [pyStrip, List.cons_append, List.dropWhile_cons_of_neg (by simp [ha])]
    rw [show (a :: (x2 ++ [' '])).reverse = ' ' :: (x2.reverse ++ [a]) from by
      simp]
    rw [List.dropWhile_cons_of_pos (by simp [isPySpace])]
    rw [dropWhile_eq_self_of_all _ _ ?h2]
    · simp
    case h2 =>
      intro c hc
      rcases List.mem_append.mp hc with h1 | h1
      · exact h c (List.mem_cons_of_mem _ (List.mem_reverse.mp h1))
      · rcases List.mem_singleton.mp h1 with rfl
        exact ha

theorem dropWhile_append_of_ne_nil (p : Char → Bool) (l r : List Char)
    (h : l.dropWhile p ≠ []) :
    (l ++ r).dropWhile p = l.dropWhile p ++ r := by
  induction l with
  | nil => exact absurd rfl h
  | cons a l2 ih =>
    by_cases ha : p a
    · rw [List.dropWhile_cons_of_pos ha] at h
      rw [List.cons_append, List.dropWhile_cons_of_pos ha,
        List.dropWhile_cons_of_pos ha]
      exact ih h
    · rw [List.cons_append, List.dropWhile_cons_of_neg ha,
        List.dropWhile_cons_of_neg ha, List.cons_append]

theorem dropWhile_ne_nil_of_mem (p : Char → Bool) (l : List Char) (c : Char)
    (hc : c ∈ l) (hp : p c = false) : l.dropWhile p ≠ [] := by
  induction l with
  | nil => cases hc
  | cons a l2 ih =>
    by_cases ha : p a
    · rw [List.dropWhile_cons_of_pos ha]
      rcases List.mem_cons.mp hc with rfl | h2
      · simp_all
      · exact ih h2
    · rw [List.dropWhile_cons_of_neg ha]
      simp

theorem pyStrip_mid (a : Char) (A1 : List Char) (e : Char) (B1 : List Char)
    (hA : isPySpace a = false) (hE : isPySpace e = false) :
    pyStrip ((a :: A1) ++ ' ' :: e :: B1) =
      (a :: A1) ++ ' ' :: pyStrip (e :: B1) := by
  have hne : List.dropWhile isPySpace (e :: B1).reverse ≠ [] :=
    dropWhile_ne_nil_of_mem _ _ e (by simp) hE
  rw [pyStrip, pyStrip]
  rw [List.dropWhile_cons_of_neg (by simp [hE])]
  rw [List.cons_append, List.dropWhile_cons_of_neg (by simp [hA])]
  rw [← List.cons_append, List.reverse_append]
  rw [show (' ' :: e :: B1).reverse = (e :: B1).reverse ++ [' '] from by simp]
  rw [List.append_assoc]
  rw [dropWhile_append_of_ne_nil _ _ _ hne]
  rw [List.reverse_append]
  simp

theorem dropWhile_length_le (p : Char → Bool) (l : List Char) :
    (l.dropWhile p).length ≤ l.length := by
  induction l with
  | nil => simp
  | cons a l2 ih =>
    by_cases ha : p a
    · rw [List.dropWhile_cons_of_pos ha]
      exact Nat.le_succ_of_le ih
    · rw [List.dropWhile_cons_of_neg ha]

theorem dropWhile_head_false (p : Char → Bool) (l : List Char) (e : Char)
    (es : List Char) (h : l.dropWhile p = e :: es) : p e = false := by
  induction l with
  | nil => cases h
  | cons a l2 ih =>
    by_cases ha : p a
    · rw [List.dropWhile_cons_of_pos ha] at h
      exact ih h
    · rw [List.dropWhile_cons_of_neg ha] at h
      injection h with h1 h2
      rw [← h1]
      simpa using ha

theorem stripCollapse_base (acc : List Char)
    (hacc : ∀ c ∈ acc, isPySpace c = false) :
    pyStrip (acc.reverse ++ collapseRunsAux false []) =
      joinWords (pySplitAux [] acc) := by
  rw [show collapseRunsAux false [] = [] from rfl, List.append_nil]
  rw [pyStrip_of_all_nonspace _ (fun c hc => hacc c (List.mem_reverse.mp hc))]
  rw [pySplitAux]
  by_cases ha : acc.isEmpty
  · rw [if_pos ha]
    obtain rfl : acc = [] := List.isEmpty_iff.mp ha
    rfl
  · rw [if_neg ha]
    rfl

theorem stripCollapse_eq_join : ∀ (n : Nat) (cs acc : List Char),
    cs.length ≤ n → (∀ c ∈ acc, isPySpace c = false) →
    pyStrip (acc.reverse ++ collapseRunsAux false cs) =
      joinWords (pySplitAux cs acc) := by
  intro n
  induction n with
  | zero =>
    intro cs acc hlen hacc
    obtain rfl : cs = [] := by
      cases cs with
      | nil => rfl
      | cons a l => simp at hlen
    exact stripCollapse_base acc hacc
  | succ n ih =>
    intro cs acc hlen hacc
    cases cs with
    | nil => exact stripCollapse_base acc hacc
    | cons d ds =>
      have hdslen : ds.length ≤ n := Nat.le_of_succ_le_succ (by
        simpa using hlen)
      by_cases hd : isPySpace d
      · rw [collapseRunsAux, if_pos hd, if_neg Bool.false_ne_true]
        rw [cRA_true_eq_dropWhile]
        rw [pySplitAux, if_pos hd]
        rw [pySplitAux_dropWhile ds]
        by_cases ha : acc.isEmpty
        · obtain rfl : acc = [] := List.isEmpty_iff.mp ha
          rw [if_pos ha]
          rw [List.reverse_nil, List.nil_append, pyStrip_cons_space]
          have hlen2 : (ds.dropWhile isPySpace).length ≤ n :=
            le_trans (dropWhile_length_le _ _) hdslen
          have := ih (ds.dropWhile isPySpace) [] hlen2 (by simp)
          rw [List.reverse_nil, List.nil_append] at this
          exact this
        · rw [if_neg ha]
          have hanil : acc ≠ [] := by simpa [List.isEmpty_iff] using ha
          cases hds : ds.dropWhile isPySpace with
          | nil =>
            rw [show collapseRunsAux false [] = [] from rfl]
            rw [show (' ' :: ([] : List Char)) = [' '] from rfl]
            rw [pyStrip_append_space _
              (fun c hc => hacc c (List.mem_reverse.mp hc))]
            rw [show pySplitAux [] [] = [] from rfl]
            rfl
          | cons e es =>
            have he : isPySpace e = false := dropWhile_head_false _ _ _ _ hds
            have hlen2 : (e :: es).length ≤ n := by
              rw [← hds]
              exact le_trans (dropWhile_length_le _ _) hdslen
            rw [show collapseRunsAux false (e :: es) =
                e :: collapseRunsAux false es from by
              rw [collapseRunsAux, if_neg (by simp [he])]]
            cases hrev : acc.reverse with
            | nil =>
              exact absurd (by simpa using congrArg List.reverse hrev) hanil
            | cons a A1 =>
              have hA : isPySpace a = false :=
                hacc a (List.mem_reverse.mp
                  (hrev ▸ List.mem_cons_self a A1))
              rw [pyStrip_mid a A1 e _ hA he]
              have hIH := ih (e :: es) [] hlen2 (by simp)
              rw [List.reverse_nil, List.nil_append] at hIH
              rw [show collapseRunsAux false (e :: es) =
                  e :: collapseRunsAux false es from by
                rw [collapseRunsAux, if_neg (by simp [he])]] at hIH
              rw [hIH]
              have hnn : pySplitAux (e :: es) [] ≠ [] := by
                rw [pySplitAux, if_neg (by simp [he])]
                exact pySplitAux_ne_nil es [e] (by simp)
              rw [joinWords_cons_ne_nil _ _ hnn]
      · rw [collapseRunsAux, if_neg hd]
        rw [pySplitAux, if_neg hd]
        rw [show acc.reverse ++ d :: collapseRunsAux false ds =
            (d :: acc).reverse ++ collapseRunsAux false ds from by simp]
        exact ih ds (d :: acc) hdslen (by
          intro c hc
          rcases List.mem_cons.mp hc with rfl | h2
          · simpa using hd
          · exact hacc c h2)

/-- The blank-line-collapsing `while` loop does nothing when the string
has no triple newline. -/
theorem collapseNLLoop_id (s : List Char) (h : has3NL s = false) :
    ∀ fuel, collapseNLLoop fuel s = s
  | 0 => rfl
  | fuel + 1 => by rw [collapseNLLoop, if_neg (by simp [h])]

/-- C7: the normalizer is total (including the empty string), the
whitespace collapse runs first and leaves a string whose only whitespace
is single interior `' '` characters, so the subsequent line-ending
normalization, blank-line collapsing and final strip are all no-ops: the
result is exactly `' '.join(text.split())`, which equals the input with
every whitespace run collapsed to one space and the ends trimmed
(`normalizeSpec`), and contains no newline. -/
theorem c7_preprocess_text_collapse_totality (t : List Char) :
    preprocess_text t = joinWords (pySplit t) ∧
    preprocess_text t = normalizeSpec t ∧
    (∀ c ∈ preprocess_text t, ¬ c = '\n') ∧
    preprocess_text [] = [] := by
  have hgood : ∀ w ∈ pySplitAux t [], w ≠ [] ∧ ∀ c ∈ w, isPySpace c = false :=
    pySplitAux_good t [] (by simp)
  have hchars : ∀ c ∈ joinWords (pySplitAux t []),
      c = ' ' ∨ isPySpace c = false := joinWords_chars _ hgood
  have hnocr : ∀ c ∈ joinWords (pySplitAux t []), ¬ c = '\r' := by
    intro c hc
    rcases hchars c hc with rfl | hns
    · decide
    · intro hEq
      rw [hEq] at hns
      simp [isPySpace] at hns
  have hnonl : ∀ c ∈ joinWords (pySplitAux t []), ¬ c = '\n' := by
    intro c hc
    rcases hchars c hc with rfl | hns
    · decide
    · intro hEq
      rw [hEq] at hns
      simp [isPySpace] at hns
  have hpre : preprocess_text t = joinWords (pySplitAux t []) := by
    show pyStrip (collapseNLLoop
        (replaceCR (replaceCRLF (joinWords (pySplitAux t [])))).length
        (replaceCR (replaceCRLF (joinWords (pySplitAux t []))))) =
      joinWords (pySplitAux t [])
    rw [replaceCRLF_no_cr _ hnocr, replaceCR_no_cr _ hnocr,
      collapseNLLoop_id _ (has3NL_no_nl _ hnonl),
      pyStrip_eq_self _ (joinWords_head _ hgood) (joinWords_last _ hgood)]
  refine ⟨hpre, ?_, ?_, rfl⟩
  · have h := stripCollapse_eq_join t.length t [] le_rfl (by simp)
    rw [List.reverse_nil, List.nil_append] at h
    rw [hpre, normalizeSpec, collapseRuns]
    exact h.symm
  · intro c hc
    rw [hpre] at hc
    exact hnonl c hc

/-- C7 witness: the theorem evaluated at `"  a\r\n\n\n b "`, whose
normal form is `"a b"`. -/
theorem c7_preprocess_text_collapse_totality_witness :
    preprocess_text (strL "  a\r\n\n\n b ") = strL "a b" ∧
    preprocess_text (strL "  a\r\n\n\n b ") =
      normalizeSpec (strL "  a\r\n\n\n b ") := by
  have h := c7_preprocess_text_collapse_totality (strL "  a\r\n\n\n b ")
  exact ⟨by rw [h.1]; rfl, h.2.1⟩


end ApiDocsQA
